import Mathlib

/-!
Verification of the Minecraft Overviewer binary-format layer.

The repository source under `overviewer_core/nbt.py` declares the exception
hierarchy used by the region/NBT reading layer.  The reading layer itself
(container reader, payload decompressor, tree parser) is a native extension
whose code is not in the repository; those components are modelled here from
the specification and marked as such in their doc comments.
-/

namespace Overviewer

/-! ## The exception class hierarchy of `overviewer_core/nbt.py`

The Python source declares:
`class CorruptionError(Exception)`, `class CorruptRegionError(CorruptionError)`,
`class CorruptChunkError(CorruptionError)`, `class CorruptNBTError(CorruptionError)`.
We embed the classes as an enumerated type and the declared base-class
relation exactly as written in the source. -/

/-- The exception classes declared in `overviewer_core/nbt.py`, together with
the built-in `Exception` base class they ultimately derive from. -/
inductive PyClass where
  | exceptionBase
  | corruptionError
  | corruptRegionError
  | corruptChunkError
  | corruptNBTError
deriving DecidableEq, Fintype

/-- The declared direct base class of each class, exactly as in the source:
`CorruptionError(Exception)`, `CorruptRegionError(CorruptionError)`,
`CorruptChunkError(CorruptionError)`, `CorruptNBTError(CorruptionError)`. -/
def pySuperclass : PyClass → Option PyClass
  | .exceptionBase => none
  | .corruptionError => some .exceptionBase
  | .corruptRegionError => some .corruptionError
  | .corruptChunkError => some .corruptionError
  | .corruptNBTError => some .corruptionError

/-- The ancestor chain of a class (the class itself followed by its base
classes).  The declared hierarchy has depth at most three, so walking the
`pySuperclass` chain three steps reaches the root from every class. -/
def ancestors (c : PyClass) : List PyClass :=
  match pySuperclass c with
  | none => [c]
  | some p =>
    match pySuperclass p with
    | none => [c, p]
    | some q =>
      match pySuperclass q with
      | none => [c, p, q]
      | some r => [c, p, q, r]

/-- Python `issubclass`: reflexive-transitive closure of the declared
base-class relation. -/
def isSubclass (c d : PyClass) : Bool :=
  d ∈ ancestors c

/-- Python exception handling: a `except D` handler catches a raised instance
of class `c` exactly when `c` is a subclass of `D`. -/
def catchesClass (handler raised : PyClass) : Bool :=
  isSubclass raised handler

/-- C1: the program defines exactly three corruption error kinds —
`CorruptRegionError`, `CorruptChunkError` and `CorruptNBTError` — each a
distinct direct subclass of the single shared category `CorruptionError`,
and a handler catching `CorruptionError` catches every one of the three. -/
theorem corruption_hierarchy_c1 :
    (∀ c : PyClass, pySuperclass c = some .corruptionError ↔
      (c = .corruptRegionError ∨ c = .corruptChunkError ∨ c = .corruptNBTError)) ∧
    (PyClass.corruptRegionError ≠ PyClass.corruptChunkError ∧
     PyClass.corruptRegionError ≠ PyClass.corruptNBTError ∧
     PyClass.corruptChunkError ≠ PyClass.corruptNBTError) ∧
    (catchesClass .corruptionError .corruptRegionError = true ∧
     catchesClass .corruptionError .corruptChunkError = true ∧
     catchesClass .corruptionError .corruptNBTError = true) := by
  decide

/-- C10: the three narrow corruption classes are pairwise disjoint — a
handler catching one narrow kind never catches an instance of another. -/
theorem corruption_disjoint_c10 :
    catchesClass .corruptRegionError .corruptChunkError = false ∧
    catchesClass .corruptRegionError .corruptNBTError = false ∧
    catchesClass .corruptChunkError .corruptRegionError = false ∧
    catchesClass .corruptChunkError .corruptNBTError = false ∧
    catchesClass .corruptNBTError .corruptRegionError = false ∧
    catchesClass .corruptNBTError .corruptChunkError = false := by
  decide

/-! ## Container Reader

Modelled from the spec: the region-style container reader (spec sections 3,
4.2 and 6) is part of the native extension and its code is not in the
repository; only its error classes are declared in `overviewer_core/nbt.py`.
A container file is a byte sequence (each entry a byte value); the fixed
header is two 4096-byte tables of 1024 four-byte big-endian entries. -/

/-- Errors of the container reader: the container-level corruption kind,
corresponding to the `CorruptRegionError` class of `overviewer_core/nbt.py`. -/
inductive RegionErr where
  | corruptRegion
deriving DecidableEq

/-- Modelled from the spec: the chunk-slot index for coordinates, spec 4.2:
`x,z` are taken modulo 32 to index a 32×32 grid,
`index = (x mod 32) + (z mod 32)*32`. -/
def chunkIndex (x z : Nat) : Nat :=
  x % 32 + (z % 32) * 32

/-- Modelled from the spec: the location-table entry for slot `i`, spec 3 and
6: a 3-byte big-endian sector offset followed by a 1-byte sector count,
stored at byte `4*i` of the first 4096-byte table.  Reads past the end of
the byte list default to 0. -/
def entryOffset (bytes : List Nat) (i : Nat) : Nat :=
  bytes.getD (4 * i) 0 * 65536 + bytes.getD (4 * i + 1) 0 * 256 + bytes.getD (4 * i + 2) 0

/-- Modelled from the spec: the 1-byte sector count of the location-table
entry for slot `i`. -/
def entrySectorCount (bytes : List Nat) (i : Nat) : Nat :=
  bytes.getD (4 * i + 3) 0

/-- Modelled from the spec: the 4-byte big-endian value stored at byte
offset `o`, spec 4.2: at a chunk's byte offset, the first 4 bytes
(big-endian) give the payload length including the 1-byte compression
marker that follows. -/
def chunkLenAt (bytes : List Nat) (o : Nat) : Nat :=
  ((bytes.getD o 0 * 256 + bytes.getD (o + 1) 0) * 256 + bytes.getD (o + 2) 0) * 256 +
    bytes.getD (o + 3) 0

/-- A handle to an opened container, as produced by `openContainer`: the
index is loaded once at open time and the view is read-only thereafter, so
the handle simply owns the validated file bytes. -/
structure Handle where
  bytes : List Nat
deriving DecidableEq

/-- Modelled from the spec: validity of one loaded index entry at open time,
spec 4.2: an absent entry (offset 0) is valid; a present entry's computed
byte range (its sector span `offset*4096 + count*4096`) must fall inside
the file's actual length. -/
def entryOK (bytes : List Nat) (i : Nat) : Bool :=
  entryOffset bytes i = 0 ∨
    (entryOffset bytes i + entrySectorCount bytes i) * 4096 ≤ bytes.length

/-- Modelled from the spec: `open(path) -> Handle | CorruptRegionError`,
spec 4.2: fails if the file is shorter than the fixed header region
(two 4096-byte tables = 8192 bytes), or if any loaded index entry's
computed byte range falls outside the file's actual length. -/
def openContainer (bytes : List Nat) : Except RegionErr Handle :=
  if bytes.length < 8192 then .error .corruptRegion
  else if (List.range 1024).all (fun i => entryOK bytes i) then .ok ⟨bytes⟩
  else .error .corruptRegion

/-- Modelled from the spec: `read_chunk(handle, x, z)`, spec 4.2 and 6: an
absent slot (offset 0) yields no chunk; a present slot resolves to byte
offset `offset*4096`, where 4 bytes of big-endian length, 1 byte of
compression type and `length-1` bytes of compressed payload are read; a
present slot whose computed byte span lies outside the file raises the
container-level error rather than reading past the file end.  The result
carries the compression-type byte and the raw compressed payload. -/
def readChunk (h : Handle) (x z : Nat) : Except RegionErr (Option (Nat × List Nat)) :=
  let bytes := h.bytes
  let off := entryOffset bytes (chunkIndex x z)
  if off = 0 then .ok none
  else
    let o := off * 4096
    if o + 4 ≤ bytes.length then
      let len := chunkLenAt bytes o
      if 1 ≤ len ∧ o + 4 + len ≤ bytes.length then
        .ok (some (bytes.getD (o + 4) 0, (bytes.drop (o + 5)).take (len - 1)))
      else .error .corruptRegion
    else .error .corruptRegion

/-- The byte positions a `readChunk` call inspects, mirroring `readChunk`
branch for branch: the three offset bytes of the slot's location-table
entry; then, for a present slot whose length field is in bounds, the four
length bytes; then, when the whole span is in bounds, the compression-type
byte and the `length-1` payload bytes. -/
def readChunkReads (bytes : List Nat) (x z : Nat) : List Nat :=
  let i := chunkIndex x z
  let off := entryOffset bytes i
  let tableReads := [4 * i, 4 * i + 1, 4 * i + 2]
  if off = 0 then tableReads
  else
    let o := off * 4096
    if o + 4 ≤ bytes.length then
      let len := chunkLenAt bytes o
      if 1 ≤ len ∧ o + 4 + len ≤ bytes.length then
        tableReads ++ [o, o + 1, o + 2, o + 3] ++ List.range' (o + 4) len
      else tableReads ++ [o, o + 1, o + 2, o + 3]
    else tableReads

theorem chunkIndex_lt (x z : Nat) : chunkIndex x z < 1024 := by
  unfold chunkIndex
  have h1 : x % 32 < 32 := Nat.mod_lt _ (by decide)
  have h2 : z % 32 < 32 := Nat.mod_lt _ (by decide)
  omega

theorem getD_zero_replicate : ∀ (n i : Nat), (List.replicate n (0 : Nat)).getD i 0 = 0 := by
  intro n
  induction n with
  | zero => intro i; rfl
  | succ n ih =>
    intro i
    cases i with
    | zero => rfl
    | succ j => simp [List.replicate_succ, List.getD_cons_succ, ih j]

/-- C2: `read_chunk` never inspects a byte position outside
`[0, file_length)` — every position in its read trace is in bounds — and a
present index entry whose computed byte span
`offset*4096 + 4 + stored_length` exceeds the file length makes
`read_chunk` raise the container-level error instead of reading past the
file end. -/
theorem readChunk_bounds_c2 :
    (∀ (bytes : List Nat) (x z : Nat), 8192 ≤ bytes.length →
      (readChunkReads bytes x z).all (fun j => decide (j < bytes.length)) = true) ∧
    (∀ (bytes : List Nat) (x z : Nat),
      entryOffset bytes (chunkIndex x z) ≠ 0 →
      bytes.length < entryOffset bytes (chunkIndex x z) * 4096 + 4 +
        chunkLenAt bytes (entryOffset bytes (chunkIndex x z) * 4096) →
      readChunk ⟨bytes⟩ x z = .error .corruptRegion) := by
  constructor
  · intro bytes x z hlen
    have hidx : chunkIndex x z < 1024 := chunkIndex_lt x z
    rw [List.all_eq_true]
    intro j hj
    rw [decide_eq_true_iff]
    unfold readChunkReads at hj
    simp only at hj
    split at hj
    · simp only [List.mem_cons, List.not_mem_nil, or_false] at hj
      omega
    · split at hj
      · rename_i hle
        split at hj
        · rename_i hspan
          simp only [List.append_assoc, List.mem_append, List.mem_cons,
            List.not_mem_nil, or_false, List.mem_range'_1] at hj
          omega
        · simp only [List.mem_append, List.mem_cons, List.not_mem_nil, or_false] at hj
          omega
      · simp only [List.mem_cons, List.not_mem_nil, or_false] at hj
        omega
  · intro bytes x z hoff hspan
    unfold readChunk
    simp only
    rw [if_neg hoff]
    split
    · rw [if_neg]
      omega
    · rfl

/-- A container file used as a concrete corrupt input: its slot (0,0) entry
has sector offset 2, so the chunk data would start at byte 8192, exactly
the end of the 8192-byte file. -/
def spanFile : List Nat := 0 :: 0 :: 2 :: 1 :: List.replicate 8188 0

theorem spanFile_length : spanFile.length = 8192 := by
  simp only [spanFile, List.length_cons, List.length_replicate]

theorem readChunk_bounds_c2_witness :
    (readChunkReads spanFile 0 0).all (fun j => decide (j < spanFile.length)) = true ∧
    readChunk ⟨spanFile⟩ 0 0 = .error .corruptRegion := by
  constructor
  · exact readChunk_bounds_c2.1 spanFile 0 0 (by rw [spanFile_length])
  · refine readChunk_bounds_c2.2 spanFile 0 0 ?_ ?_
    · show entryOffset spanFile (chunkIndex 0 0) ≠ 0
      decide
    · have h1 : spanFile.length = 8192 := spanFile_length
      have h2 : entryOffset spanFile (chunkIndex 0 0) = 2 := by decide
      rw [h1, h2]
      omega

/-- C3: a file shorter than the fixed 8192-byte header region (two
4096-byte tables) always fails to open with the container-level error and
yields no handle. -/
theorem open_truncated_c3 (bytes : List Nat) (h : bytes.length < 8192) :
    openContainer bytes = .error .corruptRegion := by
  unfold openContainer
  rw [if_pos h]

theorem open_truncated_c3_witness : openContainer [] = .error .corruptRegion :=
  open_truncated_c3 [] (by decide)

/-- C4: an absent slot (index entry with offset 0) yields no chunk and is
never an error; in particular a container whose header tables are all zero
opens successfully and `read_chunk` returns no chunk for every coordinate
pair in `[0,32)²`. -/
theorem readChunk_absent_c4 :
    (∀ (bytes : List Nat) (x z : Nat), entryOffset bytes (chunkIndex x z) = 0 →
      readChunk ⟨bytes⟩ x z = .ok none) ∧
    (∀ bytes : List Nat, 8192 ≤ bytes.length →
      (∀ i, i < 8192 → bytes.getD i 0 = 0) →
      openContainer bytes = .ok ⟨bytes⟩ ∧
      ∀ x z, x < 32 → z < 32 → readChunk ⟨bytes⟩ x z = .ok none) := by
  have habs : ∀ (bytes : List Nat) (x z : Nat), entryOffset bytes (chunkIndex x z) = 0 →
      readChunk ⟨bytes⟩ x z = .ok none := by
    intro bytes x z h
    unfold readChunk
    simp only
    rw [if_pos h]
  refine ⟨habs, ?_⟩
  intro bytes hlen hzero
  have hoff : ∀ i, i < 1024 → entryOffset bytes i = 0 := by
    intro i hi
    unfold entryOffset
    rw [hzero (4 * i) (by omega), hzero (4 * i + 1) (by omega), hzero (4 * i + 2) (by omega)]
  constructor
  · unfold openContainer
    rw [if_neg (by omega)]
    rw [if_pos]
    rw [List.all_eq_true]
    intro i hi
    rw [List.mem_range] at hi
    unfold entryOK
    rw [decide_eq_true_iff]
    left
    exact hoff i hi
  · intro x z _ _
    exact habs bytes x z (hoff _ (chunkIndex_lt x z))

/-- An 8192-byte container file whose header tables are entirely zero. -/
def zeroFile : List Nat := List.replicate 8192 0

theorem readChunk_absent_c4_witness :
    openContainer zeroFile = .ok ⟨zeroFile⟩ ∧ readChunk ⟨zeroFile⟩ 0 0 = .ok none := by
  have h := readChunk_absent_c4.2 zeroFile
    (by rw [zeroFile, List.length_replicate]) (fun i _ => getD_zero_replicate 8192 i)
  exact ⟨h.1, h.2 0 0 (by decide) (by decide)⟩

/-! ## Payload Decompressor

Modelled from the spec: the payload decompressor (spec section 4.3) is part
of the native extension and its code is not in the repository.  The inflate
routines themselves are foreign library calls; they are abstracted as
functions returning `none` on any failure to inflate fully (truncated
stream, checksum mismatch). -/

/-- Errors of the decompressor: the payload-level corruption kind,
corresponding to the `CorruptChunkError` class of `overviewer_core/nbt.py`. -/
inductive ChunkErr where
  | corruptChunk
deriving DecidableEq

/-- The recognized compression-type markers, spec 4.3 and 6: a gzip-wrapped
stream, a zlib-wrapped stream and the uncompressed passthrough, with the
region-format marker values 1, 2 and 3. -/
def gzipTag : Nat := 1

/-- The zlib-wrapped stream marker. -/
def zlibTag : Nat := 2

/-- The uncompressed passthrough marker. -/
def rawTag : Nat := 3

/-- Modelled from the spec:
`decompress(bytes, compression_tag) -> byte buffer | CorruptChunkError`,
spec 4.3: dispatch on the recognized markers, feeding the bytes to the
matching inflate routine (`inflateGzip`, `inflateZlib`, abstracted as
arguments) or passing them through untouched; any other tag value, or a
stream the inflate routine cannot inflate fully, raises the payload-level
error.  The `Except` result returns no buffer at all on failure. -/
def decompress (inflateGzip inflateZlib : List Nat → Option (List Nat))
    (b : List Nat) (tag : Nat) : Except ChunkErr (List Nat) :=
  if tag = gzipTag then
    match inflateGzip b with
    | some out => .ok out
    | none => .error .corruptChunk
  else if tag = zlibTag then
    match inflateZlib b with
    | some out => .ok out
    | none => .error .corruptChunk
  else if tag = rawTag then .ok b
  else .error .corruptChunk

/-- C7: `decompress` raises the payload-level error on every unrecognized
compression marker and on every stream its inflate routine fails to
inflate fully, and, being an `Except`, returns no partial buffer on
failure. -/
theorem decompress_fail_c7 :
    (∀ (inflateGzip inflateZlib : List Nat → Option (List Nat)) (b : List Nat) (tag : Nat),
      tag ≠ gzipTag → tag ≠ zlibTag → tag ≠ rawTag →
      decompress inflateGzip inflateZlib b tag = .error .corruptChunk) ∧
    (∀ (inflateGzip inflateZlib : List Nat → Option (List Nat)) (b : List Nat),
      inflateGzip b = none →
      decompress inflateGzip inflateZlib b gzipTag = .error .corruptChunk) ∧
    (∀ (inflateGzip inflateZlib : List Nat → Option (List Nat)) (b : List Nat),
      inflateZlib b = none →
      decompress inflateGzip inflateZlib b zlibTag = .error .corruptChunk) := by
  refine ⟨?_, ?_, ?_⟩
  · intro fg fz b tag h1 h2 h3
    unfold decompress
    rw [if_neg h1, if_neg h2, if_neg h3]
  · intro fg fz b h
    unfold decompress
    rw [if_pos rfl, h]
  · intro fg fz b h
    unfold decompress
    rw [if_neg (by decide), if_pos rfl, h]

theorem decompress_fail_c7_witness :
    decompress (fun _ => none) (fun _ => none) [] 99 = .error .corruptChunk ∧
    decompress (fun _ => none) (fun _ => none) [] gzipTag = .error .corruptChunk ∧
    decompress (fun _ => none) (fun _ => none) [] zlibTag = .error .corruptChunk :=
  ⟨decompress_fail_c7.1 (fun _ => none) (fun _ => none) [] 99
      (by decide) (by decide) (by decide),
    decompress_fail_c7.2.1 (fun _ => none) (fun _ => none) [] rfl,
    decompress_fail_c7.2.2 (fun _ => none) (fun _ => none) [] rfl⟩

/-! ## Tag Model and Tree Parser

Modelled from the spec: the NBT tag model and the recursive-descent tree
parser (spec sections 3, 4.4 and 6) are part of the native extension and
their code is not in the repository; only the `CorruptNBTError` class is
declared in `overviewer_core/nbt.py`.

Representation choices: a file is a list of byte values; multi-byte fields
are big-endian throughout; the Float and Double payloads are kept as their
raw 4- and 8-byte big-endian bit patterns (the parser moves bytes, it does
not do floating-point arithmetic); strings and names are kept as their
UTF-8 byte sequences, validated on decode. -/

/-- The in-memory tag tree, spec 3: a tagged union with one variant per
wire kind.  `tList` stores the declared element kind alongside the
elements; `tCompound` stores the name/child pairs in order. -/
inductive Tag where
  | tEnd
  | tByte (v : Int)
  | tShort (v : Int)
  | tInt (v : Int)
  | tLong (v : Int)
  | tFloat (bits : Nat)
  | tDouble (bits : Nat)
  | tByteArray (vs : List Int)
  | tString (bs : List Nat)
  | tList (ek : Nat) (elems : List Tag)
  | tCompound (kids : List (List Nat × Tag))
  | tIntArray (vs : List Int)
  | tLongArray (vs : List Int)

/-- The wire kind byte of each variant, in the order the spec's section 3
lists the variants: End is 0 and LongArray is 12. -/
def kindOf : Tag → Nat
  | .tEnd => 0
  | .tByte _ => 1
  | .tShort _ => 2
  | .tInt _ => 3
  | .tLong _ => 4
  | .tFloat _ => 5
  | .tDouble _ => 6
  | .tByteArray _ => 7
  | .tString _ => 8
  | .tList _ _ => 9
  | .tCompound _ => 10
  | .tIntArray _ => 11
  | .tLongArray _ => 12

/-- Errors of the tree parser: the tree-level corruption kind,
corresponding to the `CorruptNBTError` class of `overviewer_core/nbt.py`. -/
inductive NBTErr where
  | corruptNBT
deriving DecidableEq

/-- Two's-complement reading of one byte as a signed 8-bit value. -/
def toI8 (v : Nat) : Int := if v < 128 then (v : Int) else (v : Int) - 256

/-- Two's-complement reading of a 16-bit big-endian value. -/
def toI16 (v : Nat) : Int := if v < 32768 then (v : Int) else (v : Int) - 65536

/-- Two's-complement reading of a 32-bit big-endian value. -/
def toI32 (v : Nat) : Int :=
  if v < 2147483648 then (v : Int) else (v : Int) - 4294967296

/-- Two's-complement reading of a 64-bit big-endian value. -/
def toI64 (v : Nat) : Int :=
  if v < 9223372036854775808 then (v : Int) else (v : Int) - 18446744073709551616

/-- The big-endian value of a byte sequence. -/
def beVal (bs : List Nat) : Nat := bs.foldl (fun a b => a * 256 + b) 0

/-- Take `n` bytes off the front of the stream; reading past the end of
the buffer is the tree-level error, spec 4.4. -/
def readBytesN (n : Nat) (s : List Nat) : Except NBTErr (List Nat × List Nat) :=
  if n ≤ s.length then .ok (s.take n, s.drop n) else .error .corruptNBT

/-- Whether `b` is a UTF-8 continuation byte. -/
def utf8Cont (b : Nat) : Bool := 128 ≤ b && b ≤ 191

/-- UTF-8 validity of a byte sequence (RFC 3629 table: no overlong forms,
no surrogates, no code points past U+10FFFF). -/
def utf8Valid : List Nat → Bool
  | [] => true
  | b :: rest =>
    if b ≤ 127 then utf8Valid rest
    else if 194 ≤ b && b ≤ 223 then
      match rest with
      | c1 :: r => utf8Cont c1 && utf8Valid r
      | [] => false
    else if b = 224 then
      match rest with
      | c1 :: c2 :: r => (160 ≤ c1 && c1 ≤ 191) && utf8Cont c2 && utf8Valid r
      | _ => false
    else if (225 ≤ b && b ≤ 236) || b = 238 || b = 239 then
      match rest with
      | c1 :: c2 :: r => utf8Cont c1 && utf8Cont c2 && utf8Valid r
      | _ => false
    else if b = 237 then
      match rest with
      | c1 :: c2 :: r => (128 ≤ c1 && c1 ≤ 159) && utf8Cont c2 && utf8Valid r
      | _ => false
    else if b = 240 then
      match rest with
      | c1 :: c2 :: c3 :: r =>
        (144 ≤ c1 && c1 ≤ 191) && utf8Cont c2 && utf8Cont c3 && utf8Valid r
      | _ => false
    else if 241 ≤ b && b ≤ 243 then
      match rest with
      | c1 :: c2 :: c3 :: r => utf8Cont c1 && utf8Cont c2 && utf8Cont c3 && utf8Valid r
      | _ => false
    else if b = 244 then
      match rest with
      | c1 :: c2 :: c3 :: r =>
        (128 ≤ c1 && c1 ≤ 143) && utf8Cont c2 && utf8Cont c3 && utf8Valid r
      | _ => false
    else false

/-- Modelled from the spec: read a 2-byte big-endian length followed by
that many bytes of UTF-8 text, spec 4.4 step 2; invalid UTF-8 or a length
that overruns the buffer is the tree-level error.  Used for tag names and
for String payloads. -/
def readName (s : List Nat) : Except NBTErr (List Nat × List Nat) :=
  match s with
  | l0 :: l1 :: r =>
    let n := l0 * 256 + l1
    if n ≤ r.length then
      if utf8Valid (r.take n) then .ok (r.take n, r.drop n)
      else .error .corruptNBT
    else .error .corruptNBT
  | _ => .error .corruptNBT

/-- Read `n` consecutive `w`-byte big-endian values off the stream. -/
def readBEs (w : Nat) : Nat → List Nat → Except NBTErr (List Nat × List Nat)
  | 0, s => .ok ([], s)
  | n + 1, s => do
    let (bs, r) ← readBytesN w s
    let (vs, r') ← readBEs w n r
    .ok (beVal bs :: vs, r')

/-- The parser's hard recursion-depth ceiling, spec 4.4 and 9: an explicit
limit on the order of hundreds of nesting levels; exceeding it is
tree-level corruption, not a process abort. -/
def DEPTH_LIMIT : Nat := 256

mutual

/-- Modelled from the spec: decode one tag payload of the given kind at
the front of the stream, spec 4.4 steps 3 to 5.  `d` is the remaining
nesting depth (each payload level consumes one unit; exhausting it is the
tree-level error); `fuel` is a structural-recursion bound on the total
number of parsing steps, chosen large enough by `parse` that it never
runs out on any input it is invoked on.  An unrecognized kind byte is the
tree-level error immediately. -/
def parsePayload (fuel d kind : Nat) (s : List Nat) : Except NBTErr (Tag × List Nat) :=
  match fuel with
  | 0 => .error .corruptNBT
  | fuel + 1 =>
    match d with
    | 0 => .error .corruptNBT
    | d + 1 =>
      match kind with
      | 0 => .ok (.tEnd, s)
      | 1 => do
        let (bs, r) ← readBytesN 1 s
        .ok (.tByte (toI8 (beVal bs)), r)
      | 2 => do
        let (bs, r) ← readBytesN 2 s
        .ok (.tShort (toI16 (beVal bs)), r)
      | 3 => do
        let (bs, r) ← readBytesN 4 s
        .ok (.tInt (toI32 (beVal bs)), r)
      | 4 => do
        let (bs, r) ← readBytesN 8 s
        .ok (.tLong (toI64 (beVal bs)), r)
      | 5 => do
        let (bs, r) ← readBytesN 4 s
        .ok (.tFloat (beVal bs), r)
      | 6 => do
        let (bs, r) ← readBytesN 8 s
        .ok (.tDouble (beVal bs), r)
      | 7 => do
        let (cbs, r) ← readBytesN 4 s
        let (ebs, r') ← readBytesN (beVal cbs) r
        .ok (.tByteArray (ebs.map toI8), r')
      | 8 => do
        let (bs, r) ← readName s
        .ok (.tString bs, r)
      | 9 =>
        match s with
        | ek :: c0 :: c1 :: c2 :: c3 :: r =>
          let cnt := toI32 (beVal [c0, c1, c2, c3])
          if cnt ≤ 0 then .ok (.tList ek [], r)
          else if ek = 0 then .error .corruptNBT
          else do
            let (ts, r') ← parseElems fuel d ek cnt.toNat r
            .ok (.tList ek ts, r')
        | _ => .error .corruptNBT
      | 10 => do
        let (ks, r) ← parseKids fuel d (s.length + 1) s
        .ok (.tCompound ks, r)
      | 11 => do
        let (cbs, r) ← readBytesN 4 s
        let (vs, r') ← readBEs 4 (beVal cbs) r
        .ok (.tIntArray (vs.map toI32), r')
      | 12 => do
        let (cbs, r) ← readBytesN 4 s
        let (vs, r') ← readBEs 8 (beVal cbs) r
        .ok (.tLongArray (vs.map toI64), r')
      | _ => .error .corruptNBT
  termination_by structural fuel

/-- Modelled from the spec: decode `n` unnamed homogeneous list elements
of kind `ek`, spec 4.4 step 5: no per-element name or kind headers. -/
def parseElems (fuel d ek n : Nat) (s : List Nat) : Except NBTErr (List Tag × List Nat) :=
  match fuel with
  | 0 => .error .corruptNBT
  | fuel + 1 =>
    match n with
    | 0 => .ok ([], s)
    | n + 1 => do
      let (t, r) ← parsePayload fuel d ek s
      let (ts, r') ← parseElems fuel d ek n r
      .ok (t :: ts, r')
  termination_by structural fuel

/-- Modelled from the spec: decode named compound children until a child
with kind End is read, spec 4.4 step 4; the End marker is not stored as a
child, and a buffer exhausted before the End marker is the tree-level
error.  `loopFuel` bounds the loop structurally and is started at one more
than the stream length, which iterations (each consuming at least the kind
byte) can never exhaust. -/
def parseKids (fuel d loopFuel : Nat) (s : List Nat) :
    Except NBTErr (List (List Nat × Tag) × List Nat) :=
  match fuel with
  | 0 => .error .corruptNBT
  | fuel + 1 =>
    match loopFuel with
    | 0 => .error .corruptNBT
    | loopFuel + 1 =>
      match s with
      | [] => .error .corruptNBT
      | k :: r =>
        if k = 0 then .ok ([], r)
        else do
          let (name, r') ← readName r
          let (t, r'') ← parsePayload fuel d k r'
          let (kids, r''') ← parseKids fuel d loopFuel r''
          .ok ((name, t) :: kids, r''')
  termination_by structural fuel

end

/-- Modelled from the spec: decode one named tag at the front of the
stream, spec 4.4 steps 1 and 2: a kind byte, then (unless the kind is
End, which has no name or payload) a length-prefixed UTF-8 name and the
kind's payload. -/
def parseNamed (fuel d : Nat) (s : List Nat) : Except NBTErr (List Nat × Tag × List Nat) :=
  match s with
  | [] => .error .corruptNBT
  | k :: r =>
    if k = 0 then .ok ([], .tEnd, r)
    else do
      let (name, r') ← readName r
      let (t, r'') ← parsePayload fuel d k r'
      .ok (name, t, r'')

/-- Modelled from the spec: `parse(bytes) -> Tag | CorruptNBTError`,
spec 4.4: decode the root named tag of an already-decompressed buffer with
the nesting-depth ceiling `DEPTH_LIMIT`.  The step fuel `4*length + 4`
exceeds the number of parsing steps any buffer of this length can demand,
so only buffer overruns, malformed framing and the depth ceiling raise the
tree-level error. -/
def parse (buf : List Nat) : Except NBTErr Tag :=
  match parseNamed (4 * buf.length + 4) DEPTH_LIMIT buf with
  | .ok (_, t, _) => .ok t
  | .error e => .error e


theorem except_ok_bind {α β ε : Type} (a : α) (f : α → Except ε β) :
    (Except.ok a >>= f) = f a := rfl

theorem except_err_bind {α β ε : Type} (e : ε) (f : α → Except ε β) :
    (Except.error e >>= f) = Except.error e := rfl

/-- C5: a List tag whose declared 4-byte big-endian signed element count
is zero or negative decodes to an empty ordered sequence — no error is
raised and no elements are read — both at any payload position and for a
root-level List. -/
theorem list_count_nonpos_c5 :
    (∀ (fuel d ek c0 c1 c2 c3 : Nat) (r : List Nat),
      toI32 (beVal [c0, c1, c2, c3]) ≤ 0 →
      parsePayload (fuel + 1) (d + 1) 9 (ek :: c0 :: c1 :: c2 :: c3 :: r) =
        .ok (.tList ek [], r)) ∧
    (∀ (ek c0 c1 c2 c3 : Nat) (r : List Nat),
      toI32 (beVal [c0, c1, c2, c3]) ≤ 0 →
      parse (9 :: 0 :: 0 :: ek :: c0 :: c1 :: c2 :: c3 :: r) = .ok (.tList ek [])) := by
  have hpay : ∀ (fuel d ek c0 c1 c2 c3 : Nat) (r : List Nat),
      toI32 (beVal [c0, c1, c2, c3]) ≤ 0 →
      parsePayload (fuel + 1) (d + 1) 9 (ek :: c0 :: c1 :: c2 :: c3 :: r) =
        .ok (.tList ek [], r) := by
    intro fuel d ek c0 c1 c2 c3 r h
    simp only [parsePayload]
    rw [if_pos h]
  refine ⟨hpay, ?_⟩
  intro ek c0 c1 c2 c3 r h
  have hn : parseNamed (4 * (9 :: 0 :: 0 :: ek :: c0 :: c1 :: c2 :: c3 :: r).length + 4)
      DEPTH_LIMIT (9 :: 0 :: 0 :: ek :: c0 :: c1 :: c2 :: c3 :: r) =
      .ok ([], .tList ek [], r) := by
    simp only [parseNamed]
    rw [if_neg (by decide)]
    have hrn : readName (0 :: 0 :: ek :: c0 :: c1 :: c2 :: c3 :: r) =
        .ok ([], ek :: c0 :: c1 :: c2 :: c3 :: r) := rfl
    rw [hrn, except_ok_bind]
    have hfuel : 4 * (9 :: 0 :: 0 :: ek :: c0 :: c1 :: c2 :: c3 :: r).length + 4 =
        (4 * (9 :: 0 :: 0 :: ek :: c0 :: c1 :: c2 :: c3 :: r).length + 3) + 1 := by
      omega
    have hdl : DEPTH_LIMIT = 255 + 1 := rfl
    rw [hfuel, hdl, hpay _ _ ek c0 c1 c2 c3 r h, except_ok_bind]
  unfold parse
  rw [hn]

theorem list_count_nonpos_c5_witness :
    parsePayload 1 1 9 (10 :: 255 :: 255 :: 255 :: 255 :: []) = .ok (.tList 10 [], []) ∧
    parse (9 :: 0 :: 0 :: 10 :: 255 :: 255 :: 255 :: 255 :: []) = .ok (.tList 10 []) :=
  ⟨list_count_nonpos_c5.1 0 0 10 255 255 255 255 [] (by decide),
    list_count_nonpos_c5.2 10 255 255 255 255 [] (by decide)⟩

/-- C6: a tag-kind byte outside the recognized kinds 0 to 12 makes the
parser raise the tree-level error immediately, both in the payload
dispatch (hence at every nested position) and for a whole buffer whose
root kind byte is unrecognized; no partially built tree is returned. -/
theorem bad_kind_c6 :
    (∀ (fuel d kind : Nat) (s : List Nat), 12 < kind →
      parsePayload fuel d kind s = .error .corruptNBT) ∧
    (∀ (kind : Nat) (rest : List Nat), 12 < kind →
      parse (kind :: rest) = .error .corruptNBT) := by
  have hpay : ∀ (fuel d kind : Nat) (s : List Nat), 12 < kind →
      parsePayload fuel d kind s = .error .corruptNBT := by
    intro fuel d kind s h
    obtain ⟨m, rfl⟩ : ∃ m, kind = m + 13 := ⟨kind - 13, by omega⟩
    cases fuel with
    | zero => rfl
    | succ fuel =>
      cases d with
      | zero => rfl
      | succ d => rfl
  refine ⟨hpay, ?_⟩
  intro kind rest h
  have hk0 : kind ≠ 0 := by omega
  have hn : parseNamed (4 * (kind :: rest).length + 4) DEPTH_LIMIT (kind :: rest) =
      .error .corruptNBT := by
    simp only [parseNamed]
    rw [if_neg hk0]
    cases hrn : readName rest with
    | error e =>
      cases e
      rw [except_err_bind]
    | ok p =>
      rw [except_ok_bind]
      show (parsePayload (4 * (kind :: rest).length + 4) DEPTH_LIMIT kind p.2 >>=
        fun t => .ok (p.1, t.1, t.2)) = .error .corruptNBT
      rw [hpay _ _ kind p.2 h, except_err_bind]
  unfold parse
  rw [hn]

theorem bad_kind_c6_witness :
    parsePayload 5 5 99 [] = .error .corruptNBT ∧ parse [99] = .error .corruptNBT :=
  ⟨bad_kind_c6.1 5 5 99 [] (by decide), bad_kind_c6.2 99 [] (by decide)⟩

/-- A buffer of `n` nested List payloads, each a singleton List of Lists:
adversarially deep input for the depth ceiling. -/
def nestBytes : Nat → List Nat
  | 0 => []
  | n + 1 => 9 :: 0 :: 0 :: 0 :: 1 :: nestBytes n

theorem parse_nest_deep : ∀ d : Nat, ∀ (n fuel : Nat) (r : List Nat), d ≤ n →
    parsePayload fuel d 9 (nestBytes n ++ r) = .error .corruptNBT := by
  intro d
  induction d with
  | zero =>
    intro n fuel r _
    cases fuel with
    | zero => rfl
    | succ fuel => rfl
  | succ d ih =>
    intro n fuel r hle
    obtain ⟨m, rfl⟩ : ∃ m, n = m + 1 := ⟨n - 1, by omega⟩
    cases fuel with
    | zero => rfl
    | succ fuel =>
      have hnb : nestBytes (m + 1) ++ r = 9 :: 0 :: 0 :: 0 :: 1 :: (nestBytes m ++ r) := rfl
      rw [hnb]
      simp only [parsePayload]
      rw [if_neg (by decide), if_neg (by decide)]
      have h1 : (toI32 (beVal [0, 0, 0, 1])).toNat = 0 + 1 := by decide
      rw [h1]
      cases fuel with
      | zero => rfl
      | succ fuel =>
        simp only [parseElems]
        rw [ih m fuel r (by omega), except_err_bind, except_err_bind]

/-- C8: the parser is total — every buffer either yields a root tag or the
tree-level error — and there is a fixed nesting-depth ceiling
(`DEPTH_LIMIT`, 256 levels) past which adversarially deep input raises
the tree-level error instead of exhausting call-stack resources: a buffer
of `n ≥ 256` nested Lists always parses to the tree-level error. -/
theorem depth_limit_c8 :
    (∀ buf : List Nat, (parse buf).isOk = true ∨ parse buf = .error .corruptNBT) ∧
    (∀ n : Nat, DEPTH_LIMIT ≤ n →
      parse (9 :: 0 :: 0 :: nestBytes n) = .error .corruptNBT) := by
  constructor
  · intro buf
    cases h : parse buf with
    | ok t => left; rfl
    | error e => cases e; right; rfl
  · intro n hn
    have hnam : parseNamed (4 * (9 :: 0 :: 0 :: nestBytes n).length + 4)
        DEPTH_LIMIT (9 :: 0 :: 0 :: nestBytes n) = .error .corruptNBT := by
      simp only [parseNamed]
      rw [if_neg (by decide)]
      have hrn : readName (0 :: 0 :: nestBytes n) = .ok ([], nestBytes n) := by
        simp only [readName]
        rw [if_pos (by simp), if_pos (by rw [List.take_zero]; rfl)]
        rw [List.take_zero, List.drop_zero]
      rw [hrn, except_ok_bind]
      have hnest : nestBytes n = nestBytes n ++ [] := (List.append_nil _).symm
      rw [hnest, parse_nest_deep DEPTH_LIMIT n _ [] hn, except_err_bind]
    unfold parse
    rw [hnam]

theorem depth_limit_c8_witness :
    ((parse []).isOk = true ∨ parse [] = .error .corruptNBT) ∧
    parse (9 :: 0 :: 0 :: nestBytes 256) = .error .corruptNBT :=
  ⟨depth_limit_c8.1 [], depth_limit_c8.2 256 (by decide)⟩

/-! ## Encoding and the decode round trip

Modelled from the spec: the wire format of section 6 gives a canonical
encoder for tag trees (big-endian multi-byte fields, kind byte, 2-byte
length-prefixed name, kind-specific payload).  The spec's testable
property of section 8 — encoding a generated tag tree and decoding the
bytes reproduces an equal tree — is proved below as `roundtrip_c9`. -/

/-- The `w`-byte big-endian encoding of `v` (mod `256^w`). -/
def natToBE : Nat → Nat → List Nat
  | 0, _ => []
  | w + 1, v => natToBE w (v / 256) ++ [v % 256]

theorem natToBE_length : ∀ (w v : Nat), (natToBE w v).length = w := by
  intro w
  induction w with
  | zero => intro v; rfl
  | succ w ih =>
    intro v
    simp only [natToBE, List.length_append, List.length_cons, List.length_nil, ih]

theorem beVal_foldl : ∀ (w v acc : Nat), v < 256 ^ w →
    List.foldl (fun a b => a * 256 + b) acc (natToBE w v) = acc * 256 ^ w + v := by
  intro w
  induction w with
  | zero =>
    intro v acc hv
    have hv0 : v = 0 := by
      simp only [pow_zero] at hv
      omega
    simp [natToBE, hv0]
  | succ w ih =>
    intro v acc hv
    have hlt : v / 256 < 256 ^ w := by
      rw [Nat.div_lt_iff_lt_mul (by decide)]
      calc v < 256 ^ (w + 1) := hv
        _ = 256 ^ w * 256 := by rw [pow_succ]
    simp only [natToBE, List.foldl_append, ih (v / 256) acc hlt, List.foldl_cons,
      List.foldl_nil]
    have hdm := Nat.div_add_mod v 256
    have hp : 256 ^ (w + 1) = 256 ^ w * 256 := pow_succ 256 w
    rw [hp]
    ring_nf
    omega

theorem beVal_natToBE (w v : Nat) (h : v < 256 ^ w) : beVal (natToBE w v) = v := by
  unfold beVal
  rw [beVal_foldl w v 0 h]
  omega

/-- The canonical 1-byte two's-complement encoding of an i8 value. -/
def encI8 (v : Int) : Nat := (v % 256).toNat

/-- The canonical 2-byte big-endian two's-complement encoding of an i16. -/
def encI16 (v : Int) : List Nat := natToBE 2 ((v % 65536).toNat)

/-- The canonical 4-byte big-endian two's-complement encoding of an i32. -/
def encI32 (v : Int) : List Nat := natToBE 4 ((v % 4294967296).toNat)

/-- The canonical 8-byte big-endian two's-complement encoding of an i64. -/
def encI64 (v : Int) : List Nat := natToBE 8 ((v % 18446744073709551616).toNat)

theorem toI8_encI8 (v : Int) (h1 : -128 ≤ v) (h2 : v < 128) : toI8 (encI8 v) = v := by
  unfold toI8 encI8
  split <;> rename_i hc <;> omega

theorem toI16_encI16 (v : Int) (h1 : -32768 ≤ v) (h2 : v < 32768) :
    toI16 (beVal (encI16 v)) = v := by
  unfold encI16
  rw [beVal_natToBE 2 _ (by omega)]
  unfold toI16
  split <;> rename_i hc <;> omega

theorem toI32_encI32 (v : Int) (h1 : -2147483648 ≤ v) (h2 : v < 2147483648) :
    toI32 (beVal (encI32 v)) = v := by
  unfold encI32
  rw [beVal_natToBE 4 _ (by omega)]
  unfold toI32
  split <;> rename_i hc <;> omega

theorem toI64_encI64 (v : Int) (h1 : -9223372036854775808 ≤ v)
    (h2 : v < 9223372036854775808) : toI64 (beVal (encI64 v)) = v := by
  unfold encI64
  rw [beVal_natToBE 8 _ (by omega)]
  unfold toI64
  split <;> rename_i hc <;> omega

theorem readBytesN_exact (a rest : List Nat) :
    readBytesN a.length (a ++ rest) = .ok (a, rest) := by
  unfold readBytesN
  rw [if_pos (by simp only [List.length_append]; omega)]
  rw [List.take_left, List.drop_left]

theorem readName_encoded (name tail : List Nat) (hlen : name.length < 65536)
    (hval : utf8Valid name = true) :
    readName (natToBE 2 name.length ++ name ++ tail) = .ok (name, tail) := by
  have h2 : natToBE 2 name.length =
      [name.length / 256 % 256, name.length % 256] := rfl
  rw [h2]
  show readName (name.length / 256 % 256 :: name.length % 256 :: (name ++ tail)) =
    .ok (name, tail)
  simp only [readName]
  have hn : name.length / 256 % 256 * 256 + name.length % 256 = name.length := by
    omega
  rw [hn]
  rw [if_pos (by simp only [List.length_append]; omega)]
  rw [List.take_left, List.drop_left]
  rw [if_pos hval]

mutual

/-- The canonical payload encoding of one tag, spec 4.4 and 6: scalar
payloads as fixed-width big-endian two's-complement (Float/Double as their
raw bit patterns), arrays and strings length-prefixed, Lists as element
kind then signed count then the bare element payloads, Compounds as the
named children followed by the End marker byte. -/
def encP : Tag → List Nat
  | .tEnd => []
  | .tByte v => [encI8 v]
  | .tShort v => encI16 v
  | .tInt v => encI32 v
  | .tLong v => encI64 v
  | .tFloat bits => natToBE 4 bits
  | .tDouble bits => natToBE 8 bits
  | .tByteArray vs => natToBE 4 vs.length ++ vs.map encI8
  | .tString bs => natToBE 2 bs.length ++ bs
  | .tList ek xs => ek :: (natToBE 4 xs.length ++ encElems xs)
  | .tCompound ks => encKids ks ++ [0]
  | .tIntArray vs => natToBE 4 vs.length ++ (vs.map encI32).flatten
  | .tLongArray vs => natToBE 4 vs.length ++ (vs.map encI64).flatten

/-- The bare back-to-back payload encodings of list elements. -/
def encElems : List Tag → List Nat
  | [] => []
  | t :: ts => encP t ++ encElems ts

/-- The encodings of compound children: kind byte, 2-byte length-prefixed
name, payload, child after child. -/
def encKids : List (List Nat × Tag) → List Nat
  | [] => []
  | (n, t) :: ks => kindOf t :: (natToBE 2 n.length ++ n ++ encP t ++ encKids ks)

end

mutual

/-- Well-formedness of a tag tree for encoding: every numeric value fits
its wire width, every count fits its count field (signed 32-bit for List
counts, unsigned for array counts, 16-bit for string and name lengths),
strings and names are valid UTF-8, list elements carry the list's declared
element kind (which is not End when elements are present, since End
decodes no element payload), and compound children are not End tags (the
End kind byte is the compound terminator). -/
def wfP : Tag → Bool
  | .tEnd => true
  | .tByte v => decide (-128 ≤ v ∧ v < 128)
  | .tShort v => decide (-32768 ≤ v ∧ v < 32768)
  | .tInt v => decide (-2147483648 ≤ v ∧ v < 2147483648)
  | .tLong v => decide (-9223372036854775808 ≤ v ∧ v < 9223372036854775808)
  | .tFloat bits => decide (bits < 4294967296)
  | .tDouble bits => decide (bits < 18446744073709551616)
  | .tByteArray vs =>
    decide (vs.length < 4294967296) && vs.all (fun v => decide (-128 ≤ v ∧ v < 128))
  | .tString bs => decide (bs.length < 65536) && utf8Valid bs
  | .tList ek xs =>
    decide (xs.length < 2147483648) && (xs.isEmpty || decide (ek ≠ 0)) &&
      decide (ek < 256) && wfElems ek xs
  | .tCompound ks => wfKids ks
  | .tIntArray vs =>
    decide (vs.length < 4294967296) &&
      vs.all (fun v => decide (-2147483648 ≤ v ∧ v < 2147483648))
  | .tLongArray vs =>
    decide (vs.length < 4294967296) &&
      vs.all (fun v => decide (-9223372036854775808 ≤ v ∧ v < 9223372036854775808))

/-- Well-formedness of list elements of declared kind `ek`. -/
def wfElems (ek : Nat) : List Tag → Bool
  | [] => true
  | t :: ts => decide (kindOf t = ek) && wfP t && wfElems ek ts

/-- Well-formedness of compound children. -/
def wfKids : List (List Nat × Tag) → Bool
  | [] => true
  | (n, t) :: ks =>
    decide (n.length < 65536) && utf8Valid n && decide (kindOf t ≠ 0) && wfP t && wfKids ks

end

mutual

/-- The nesting depth the parser needs to decode this payload: one level
for the payload itself plus the levels its children need. -/
def needD : Tag → Nat
  | .tList _ xs => needElems xs + 1
  | .tCompound ks => needKids ks + 1
  | _ => 1

/-- The nesting depth list elements need. -/
def needElems : List Tag → Nat
  | [] => 0
  | t :: ts => max (needD t) (needElems ts)

/-- The nesting depth compound children need. -/
def needKids : List (List Nat × Tag) → Nat
  | [] => 0
  | (_, t) :: ks => max (needD t) (needKids ks)

end

mutual

/-- The step fuel `parsePayload` consumes to decode this payload. -/
def costP : Tag → Nat
  | .tList _ xs => costElems xs + 1
  | .tCompound ks => costKids ks + 1
  | _ => 1

/-- The step fuel `parseElems` consumes. -/
def costElems : List Tag → Nat
  | [] => 1
  | t :: ts => max (costP t) (costElems ts) + 1

/-- The step fuel `parseKids` consumes. -/
def costKids : List (List Nat × Tag) → Nat
  | [] => 1
  | (_, t) :: ks => max (costP t) (costKids ks) + 1

end

/-- Structural induction over the nested `Tag` type, giving membership
induction hypotheses for list elements and compound children. -/
def tagInduction (motive : Tag → Prop)
    (hEnd : motive .tEnd)
    (hByte : ∀ v, motive (.tByte v))
    (hShort : ∀ v, motive (.tShort v))
    (hInt : ∀ v, motive (.tInt v))
    (hLong : ∀ v, motive (.tLong v))
    (hFloat : ∀ bits, motive (.tFloat bits))
    (hDouble : ∀ bits, motive (.tDouble bits))
    (hByteArray : ∀ vs, motive (.tByteArray vs))
    (hString : ∀ bs, motive (.tString bs))
    (hList : ∀ ek xs, (∀ t, t ∈ xs → motive t) → motive (.tList ek xs))
    (hCompound : ∀ ks, (∀ n t, (n, t) ∈ ks → motive t) → motive (.tCompound ks))
    (hIntArray : ∀ vs, motive (.tIntArray vs))
    (hLongArray : ∀ vs, motive (.tLongArray vs)) : ∀ t, motive t
  | .tEnd => hEnd
  | .tByte v => hByte v
  | .tShort v => hShort v
  | .tInt v => hInt v
  | .tLong v => hLong v
  | .tFloat bits => hFloat bits
  | .tDouble bits => hDouble bits
  | .tByteArray vs => hByteArray vs
  | .tString bs => hString bs
  | .tList ek xs =>
    hList ek xs (fun t ht =>
      tagInduction motive hEnd hByte hShort hInt hLong hFloat hDouble hByteArray
        hString hList hCompound hIntArray hLongArray t)
  | .tCompound ks =>
    hCompound ks (fun n t hnt =>
      tagInduction motive hEnd hByte hShort hInt hLong hFloat hDouble hByteArray
        hString hList hCompound hIntArray hLongArray t)
  | .tIntArray vs => hIntArray vs
  | .tLongArray vs => hLongArray vs
termination_by t => sizeOf t
decreasing_by
  · have h1 := List.sizeOf_lt_of_mem ht
    simp only [Tag.tList.sizeOf_spec]
    omega
  · have h1 := List.sizeOf_lt_of_mem hnt
    simp only [Prod.mk.sizeOf_spec] at h1
    simp only [Tag.tCompound.sizeOf_spec]
    omega

theorem encP_pos (t : Tag) (h : kindOf t ≠ 0) : 1 ≤ (encP t).length := by
  cases t with
  | tEnd => exact absurd rfl h
  | tByte v => simp [encP]
  | tShort v => simp [encP, encI16, natToBE_length]
  | tInt v => simp [encP, encI32, natToBE_length]
  | tLong v => simp [encP, encI64, natToBE_length]
  | tFloat bits => simp [encP, natToBE_length]
  | tDouble bits => simp [encP, natToBE_length]
  | tByteArray vs => simp only [encP, List.length_append, natToBE_length]; omega
  | tString bs => simp only [encP, List.length_append, natToBE_length]; omega
  | tList ek xs => simp [encP]
  | tCompound ks => simp [encP]
  | tIntArray vs => simp only [encP, List.length_append, natToBE_length]; omega
  | tLongArray vs => simp only [encP, List.length_append, natToBE_length]; omega

theorem kids_le_encKids : ∀ ks : List (List Nat × Tag), ks.length ≤ (encKids ks).length := by
  intro ks
  induction ks with
  | nil => simp [encKids]
  | cons k ks ih =>
    obtain ⟨n, t⟩ := k
    simp only [encKids, List.length_cons, List.length_append]
    omega

theorem wfElems_forall : ∀ (ek : Nat) (xs : List Tag), wfElems ek xs = true →
    ∀ t ∈ xs, kindOf t = ek ∧ wfP t = true := by
  intro ek xs
  induction xs with
  | nil => intro _ t ht; exact absurd ht (List.not_mem_nil t)
  | cons x ts ih =>
    intro h t ht
    simp only [wfElems, Bool.and_eq_true, decide_eq_true_eq] at h
    rcases List.mem_cons.mp ht with rfl | hmem
    · exact ⟨h.1.1, h.1.2⟩
    · exact ih h.2 t hmem

theorem wfKids_forall : ∀ ks : List (List Nat × Tag), wfKids ks = true →
    ∀ n t, (n, t) ∈ ks →
      n.length < 65536 ∧ utf8Valid n = true ∧ kindOf t ≠ 0 ∧ wfP t = true := by
  intro ks
  induction ks with
  | nil => intro _ n t ht; exact absurd ht (List.not_mem_nil _)
  | cons k ks ih =>
    obtain ⟨m, u⟩ := k
    intro h n t ht
    simp only [wfKids, Bool.and_eq_true, decide_eq_true_eq] at h
    rcases List.mem_cons.mp ht with heq | hmem
    · have h1 : n = m := congrArg Prod.fst heq
      have h2 : t = u := congrArg Prod.snd heq
      subst h1
      subst h2
      exact ⟨h.1.1.1.1, h.1.1.1.2, h.1.1.2, h.1.2⟩
    · exact ih h.2 n t hmem

theorem costP_pos (t : Tag) : 1 ≤ costP t := by
  cases t <;> simp [costP]

theorem costElems_bound : ∀ xs : List Tag,
    (∀ t ∈ xs, wfP t = true → costP t ≤ 4 * (encP t).length + 2) →
    (∀ t ∈ xs, kindOf t ≠ 0) → (∀ t ∈ xs, wfP t = true) →
    costElems xs ≤ 4 * (encElems xs).length + 3 := by
  intro xs
  induction xs with
  | nil => intro _ _ _; simp [costElems, encElems]
  | cons t ts ih =>
    intro hb hk hw
    have h1 : costP t ≤ 4 * (encP t).length + 2 :=
      hb t (List.mem_cons_self t ts) (hw t (List.mem_cons_self t ts))
    have h2 : costElems ts ≤ 4 * (encElems ts).length + 3 :=
      ih (fun u hu => hb u (List.mem_cons_of_mem t hu))
        (fun u hu => hk u (List.mem_cons_of_mem t hu))
        (fun u hu => hw u (List.mem_cons_of_mem t hu))
    have h3 : 1 ≤ (encP t).length := encP_pos t (hk t (List.mem_cons_self t ts))
    simp only [costElems, encElems, List.length_append]
    omega

theorem costKids_bound : ∀ ks : List (List Nat × Tag),
    (∀ n t, (n, t) ∈ ks → wfP t = true → costP t ≤ 4 * (encP t).length + 2) →
    (∀ n t, (n, t) ∈ ks → wfP t = true) →
    costKids ks ≤ 4 * (encKids ks).length + 3 := by
  intro ks
  induction ks with
  | nil => intro _ _; simp [costKids, encKids]
  | cons k ks ih =>
    obtain ⟨n, t⟩ := k
    intro hb hw
    have hmem : (n, t) ∈ (n, t) :: ks := List.mem_cons_self _ _
    have h1 : costP t ≤ 4 * (encP t).length + 2 := hb n t hmem (hw n t hmem)
    have h2 : costKids ks ≤ 4 * (encKids ks).length + 3 :=
      ih (fun m u hu => hb m u (List.mem_cons_of_mem _ hu))
        (fun m u hu => hw m u (List.mem_cons_of_mem _ hu))
    simp only [costKids, encKids, List.length_cons, List.length_append]
    omega

theorem costP_bound : ∀ t : Tag, wfP t = true → costP t ≤ 4 * (encP t).length + 2 := by
  intro t
  induction t using tagInduction with
  | hEnd => intro _; simp [costP, encP]
  | hByte v => intro _; simp [costP, encP]
  | hShort v => intro _; simp [costP, encP, encI16, natToBE_length]
  | hInt v => intro _; simp [costP, encP, encI32, natToBE_length]
  | hLong v => intro _; simp [costP, encP, encI64, natToBE_length]
  | hFloat bits => intro _; simp [costP, encP, natToBE_length]
  | hDouble bits => intro _; simp [costP, encP, natToBE_length]
  | hByteArray vs => intro _; simp [costP, encP, natToBE_length]
  | hString bs => intro _; simp [costP, encP, natToBE_length]
  | hList ek xs ih =>
    intro hwf
    simp only [wfP, Bool.and_eq_true, Bool.or_eq_true, decide_eq_true_eq] at hwf
    have hall := wfElems_forall ek xs hwf.2
    have hk : ∀ t ∈ xs, kindOf t ≠ 0 := by
      intro t ht
      have hek : kindOf t = ek := (hall t ht).1
      rcases hwf.1.1.2 with he | hne
      · rw [List.isEmpty_iff] at he
        rw [he] at ht
        exact absurd ht (List.not_mem_nil t)
      · rw [hek]; exact hne
    have hb := costElems_bound xs (fun u hu _ => ih u hu ((hall u hu).2)) hk
      (fun u hu => (hall u hu).2)
    simp only [costP, encP, List.length_cons, List.length_append, natToBE_length]
    omega
  | hCompound ks ih =>
    intro hwf
    have hall := wfKids_forall ks hwf
    have hb := costKids_bound ks (fun n u hu _ => ih n u hu ((hall n u hu).2.2.2))
      (fun n u hu => (hall n u hu).2.2.2)
    simp only [costP, encP, List.length_append, List.length_cons]
    omega
  | hIntArray vs => intro _; simp [costP, encP, natToBE_length]
  | hLongArray vs => intro _; simp [costP, encP, natToBE_length]

theorem map_id_of_mem {α : Type} (l : List α) (f : α → α) (h : ∀ a ∈ l, f a = a) :
    l.map f = l := by
  conv_rhs => rw [← List.map_id l]
  exact List.map_congr_left h

theorem needD_pos (t : Tag) : 1 ≤ needD t := by
  cases t <;> simp [needD]

theorem toI32_small (n : Nat) (h : n < 2147483648) : toI32 n = (n : Int) := by
  unfold toI32
  rw [if_pos (by omega)]

theorem beVal_one (x : Nat) : beVal [x] = x := by
  simp [beVal]

theorem natToBE_four (n : Nat) :
    natToBE 4 n = [n / 256 / 256 / 256 % 256, n / 256 / 256 % 256, n / 256 % 256, n % 256] :=
  rfl

theorem readBEs_encoded (w : Nat) : ∀ (chunks : List (List Nat)) (rest : List Nat),
    (∀ c ∈ chunks, c.length = w) →
    readBEs w chunks.length (chunks.flatten ++ rest) = .ok (chunks.map beVal, rest) := by
  intro chunks
  induction chunks with
  | nil => intro rest _; rfl
  | cons c cs ih =>
    intro rest hlen
    have hc : c.length = w := hlen c (List.mem_cons_self c cs)
    simp only [List.length_cons, List.flatten_cons, List.map_cons]
    show (do
      let (bs, r) ← readBytesN w ((c ++ cs.flatten) ++ rest)
      let (vs, r') ← readBEs w cs.length r
      (.ok (beVal bs :: vs, r') : Except NBTErr (List Nat × List Nat))) =
      .ok (beVal c :: cs.map beVal, rest)
    have hb : readBytesN w (c ++ (cs.flatten ++ rest)) = .ok (c, cs.flatten ++ rest) := by
      rw [← hc]
      exact readBytesN_exact _ _
    rw [List.append_assoc, hb, except_ok_bind]
    show (do
      let (vs, r') ← readBEs w cs.length (cs.flatten ++ rest)
      (.ok (beVal c :: vs, r') : Except NBTErr (List Nat × List Nat))) =
      .ok (beVal c :: cs.map beVal, rest)
    rw [ih rest (fun u hu => hlen u (List.mem_cons_of_mem c hu)), except_ok_bind]

theorem roundtrip_elems : ∀ (xs : List Tag) (ek : Nat),
    (∀ x ∈ xs, ∀ (d fuel : Nat) (rest : List Nat), wfP x = true → needD x ≤ d →
      costP x ≤ fuel → parsePayload fuel d (kindOf x) (encP x ++ rest) = .ok (x, rest)) →
    wfElems ek xs = true →
    ∀ (d fuel : Nat) (rest : List Nat), needElems xs ≤ d → costElems xs ≤ fuel →
      parseElems fuel d ek xs.length (encElems xs ++ rest) = .ok (xs, rest) := by
  intro xs ek
  induction xs with
  | nil =>
    intro _ _ d fuel rest _ hcost
    obtain ⟨f, rfl⟩ : ∃ f, fuel = f + 1 := ⟨fuel - 1, by simp [costElems] at hcost; omega⟩
    simp only [encElems, List.nil_append, List.length_nil]
    simp only [parseElems]
  | cons x ts ih =>
    intro h hwf d fuel rest hneed hcost
    have hx := wfElems_forall ek (x :: ts) hwf x (List.mem_cons_self x ts)
    have hwfts : wfElems ek ts = true := by
      simp only [wfElems, Bool.and_eq_true] at hwf
      exact hwf.2
    simp only [costElems] at hcost
    simp only [needElems] at hneed
    obtain ⟨f, rfl⟩ : ∃ f, fuel = f + 1 := ⟨fuel - 1, by omega⟩
    simp only [encElems, List.length_cons, List.append_assoc]
    simp only [parseElems]
    have hpx := h x (List.mem_cons_self x ts) d f (encElems ts ++ rest) hx.2
      (by omega) (by omega)
    rw [hx.1] at hpx
    rw [hpx, except_ok_bind]
    have hts := ih (fun u hu => h u (List.mem_cons_of_mem x hu)) hwfts d f rest
      (by omega) (by omega)
    show (do
      let (ts', r') ← parseElems f d ek ts.length (encElems ts ++ rest)
      (.ok (x :: ts', r') : Except NBTErr (List Tag × List Nat))) = .ok (x :: ts, rest)
    rw [hts, except_ok_bind]

theorem roundtrip_kids : ∀ ks : List (List Nat × Tag),
    (∀ n x, (n, x) ∈ ks → ∀ (d fuel : Nat) (rest : List Nat), wfP x = true → needD x ≤ d →
      costP x ≤ fuel → parsePayload fuel d (kindOf x) (encP x ++ rest) = .ok (x, rest)) →
    wfKids ks = true →
    ∀ (d fuel loopFuel : Nat) (rest : List Nat), needKids ks ≤ d → costKids ks ≤ fuel →
      ks.length < loopFuel →
      parseKids fuel d loopFuel (encKids ks ++ 0 :: rest) = .ok (ks, rest) := by
  intro ks
  induction ks with
  | nil =>
    intro _ _ d fuel loopFuel rest _ hcost hloop
    obtain ⟨f, rfl⟩ : ∃ f, fuel = f + 1 := ⟨fuel - 1, by simp [costKids] at hcost; omega⟩
    obtain ⟨l, rfl⟩ : ∃ l, loopFuel = l + 1 := ⟨loopFuel - 1, by omega⟩
    simp only [encKids, List.nil_append]
    simp only [parseKids]
    simp only [if_true]
  | cons k ks ih =>
    obtain ⟨n, t⟩ := k
    intro h hwf d fuel loopFuel rest hneed hcost hloop
    have hk := wfKids_forall ((n, t) :: ks) hwf n t (List.mem_cons_self _ _)
    have hwfks : wfKids ks = true := by
      simp only [wfKids, Bool.and_eq_true] at hwf
      exact hwf.2
    simp only [costKids] at hcost
    simp only [needKids] at hneed
    simp only [List.length_cons] at hloop
    obtain ⟨f, rfl⟩ : ∃ f, fuel = f + 1 := ⟨fuel - 1, by omega⟩
    obtain ⟨l, rfl⟩ : ∃ l, loopFuel = l + 1 := ⟨loopFuel - 1, by omega⟩
    simp only [encKids, List.cons_append, List.append_assoc]
    simp only [parseKids]
    rw [if_neg hk.2.2.1]
    have hrn : readName (natToBE 2 n.length ++ (n ++ (encP t ++ (encKids ks ++ 0 :: rest)))) =
        .ok (n, encP t ++ (encKids ks ++ 0 :: rest)) := by
      have := readName_encoded n (encP t ++ (encKids ks ++ 0 :: rest)) hk.1 hk.2.1
      rwa [List.append_assoc] at this
    rw [hrn, except_ok_bind]
    show (do
      let (t', r'') ← parsePayload f d (kindOf t) (encP t ++ (encKids ks ++ 0 :: rest))
      let (kids, r''') ← parseKids f d l r''
      (.ok ((n, t') :: kids, r''') :
        Except NBTErr (List (List Nat × Tag) × List Nat))) = .ok ((n, t) :: ks, rest)
    have hpt := h n t (List.mem_cons_self _ _) d f (encKids ks ++ 0 :: rest) hk.2.2.2
      (by omega) (by omega)
    rw [hpt, except_ok_bind]
    have hks := ih (fun m u hu => h m u (List.mem_cons_of_mem _ hu)) hwfks d f l rest
      (by omega) (by omega) (by omega)
    show (do
      let (kids, r3) ← parseKids f d l (encKids ks ++ 0 :: rest)
      (.ok ((n, t) :: kids, r3) :
        Except NBTErr (List (List Nat × Tag) × List Nat))) = .ok ((n, t) :: ks, rest)
    rw [hks, except_ok_bind]

theorem roundtrip_payload : ∀ t : Tag, ∀ (d fuel : Nat) (rest : List Nat),
    wfP t = true → needD t ≤ d → costP t ≤ fuel →
    parsePayload fuel d (kindOf t) (encP t ++ rest) = .ok (t, rest) := by
  intro t
  induction t using tagInduction with
  | hEnd =>
    intro d fuel rest _ hneed hcost
    simp only [costP] at hcost
    simp only [needD] at hneed
    obtain ⟨f, rfl⟩ : ∃ f, fuel = f + 1 := ⟨fuel - 1, by omega⟩
    obtain ⟨e, rfl⟩ : ∃ e, d = e + 1 := ⟨d - 1, by omega⟩
    rfl
  | hByte v =>
    intro d fuel rest hwf hneed hcost
    simp only [wfP, decide_eq_true_eq] at hwf
    simp only [costP] at hcost
    simp only [needD] at hneed
    obtain ⟨f, rfl⟩ : ∃ f, fuel = f + 1 := ⟨fuel - 1, by omega⟩
    obtain ⟨e, rfl⟩ : ∃ e, d = e + 1 := ⟨d - 1, by omega⟩
    simp only [kindOf, encP]
    simp only [parsePayload]
    have hr : readBytesN 1 ([encI8 v] ++ rest) = .ok ([encI8 v], rest) := by
      have h1 : ([encI8 v] : List Nat).length = 1 := rfl
      rw [← h1]
      exact readBytesN_exact _ _
    rw [hr, except_ok_bind]
    show (.ok (.tByte (toI8 (beVal [encI8 v])), rest) : Except NBTErr (Tag × List Nat)) =
      .ok (.tByte v, rest)
    rw [beVal_one, toI8_encI8 v hwf.1 hwf.2]
  | hShort v =>
    intro d fuel rest hwf hneed hcost
    simp only [wfP, decide_eq_true_eq] at hwf
    simp only [costP] at hcost
    simp only [needD] at hneed
    obtain ⟨f, rfl⟩ : ∃ f, fuel = f + 1 := ⟨fuel - 1, by omega⟩
    obtain ⟨e, rfl⟩ : ∃ e, d = e + 1 := ⟨d - 1, by omega⟩
    simp only [kindOf, encP]
    simp only [parsePayload]
    have hr : readBytesN 2 (encI16 v ++ rest) = .ok (encI16 v, rest) := by
      have h1 : (encI16 v).length = 2 := by rw [encI16, natToBE_length]
      rw [← h1]
      exact readBytesN_exact _ _
    rw [hr, except_ok_bind]
    show (.ok (.tShort (toI16 (beVal (encI16 v))), rest) : Except NBTErr (Tag × List Nat)) =
      .ok (.tShort v, rest)
    rw [toI16_encI16 v hwf.1 hwf.2]
  | hInt v =>
    intro d fuel rest hwf hneed hcost
    simp only [wfP, decide_eq_true_eq] at hwf
    simp only [costP] at hcost
    simp only [needD] at hneed
    obtain ⟨f, rfl⟩ : ∃ f, fuel = f + 1 := ⟨fuel - 1, by omega⟩
    obtain ⟨e, rfl⟩ : ∃ e, d = e + 1 := ⟨d - 1, by omega⟩
    simp only [kindOf, encP]
    simp only [parsePayload]
    have hr : readBytesN 4 (encI32 v ++ rest) = .ok (encI32 v, rest) := by
      have h1 : (encI32 v).length = 4 := by rw [encI32, natToBE_length]
      rw [← h1]
      exact readBytesN_exact _ _
    rw [hr, except_ok_bind]
    show (.ok (.tInt (toI32 (beVal (encI32 v))), rest) : Except NBTErr (Tag × List Nat)) =
      .ok (.tInt v, rest)
    rw [toI32_encI32 v hwf.1 hwf.2]
  | hLong v =>
    intro d fuel rest hwf hneed hcost
    simp only [wfP, decide_eq_true_eq] at hwf
    simp only [costP] at hcost
    simp only [needD] at hneed
    obtain ⟨f, rfl⟩ : ∃ f, fuel = f + 1 := ⟨fuel - 1, by omega⟩
    obtain ⟨e, rfl⟩ : ∃ e, d = e + 1 := ⟨d - 1, by omega⟩
    simp only [kindOf, encP]
    simp only [parsePayload]
    have hr : readBytesN 8 (encI64 v ++ rest) = .ok (encI64 v, rest) := by
      have h1 : (encI64 v).length = 8 := by rw [encI64, natToBE_length]
      rw [← h1]
      exact readBytesN_exact _ _
    rw [hr, except_ok_bind]
    show (.ok (.tLong (toI64 (beVal (encI64 v))), rest) : Except NBTErr (Tag × List Nat)) =
      .ok (.tLong v, rest)
    rw [toI64_encI64 v hwf.1 hwf.2]
  | hFloat bits =>
    intro d fuel rest hwf hneed hcost
    simp only [wfP, decide_eq_true_eq] at hwf
    simp only [costP] at hcost
    simp only [needD] at hneed
    obtain ⟨f, rfl⟩ : ∃ f, fuel = f + 1 := ⟨fuel - 1, by omega⟩
    obtain ⟨e, rfl⟩ : ∃ e, d = e + 1 := ⟨d - 1, by omega⟩
    simp only [kindOf, encP]
    simp only [parsePayload]
    have hr : readBytesN 4 (natToBE 4 bits ++ rest) = .ok (natToBE 4 bits, rest) := by
      have h1 : (natToBE 4 bits).length = 4 := natToBE_length 4 bits
      rw [← h1]
      exact readBytesN_exact _ _
    rw [hr, except_ok_bind]
    show (.ok (.tFloat (beVal (natToBE 4 bits)), rest) : Except NBTErr (Tag × List Nat)) =
      .ok (.tFloat bits, rest)
    rw [beVal_natToBE 4 bits (by
        have h4 : (256 : Nat) ^ 4 = 4294967296 := by norm_num
        omega)]
  | hDouble bits =>
    intro d fuel rest hwf hneed hcost
    simp only [wfP, decide_eq_true_eq] at hwf
    simp only [costP] at hcost
    simp only [needD] at hneed
    obtain ⟨f, rfl⟩ : ∃ f, fuel = f + 1 := ⟨fuel - 1, by omega⟩
    obtain ⟨e, rfl⟩ : ∃ e, d = e + 1 := ⟨d - 1, by omega⟩
    simp only [kindOf, encP]
    simp only [parsePayload]
    have hr : readBytesN 8 (natToBE 8 bits ++ rest) = .ok (natToBE 8 bits, rest) := by
      have h1 : (natToBE 8 bits).length = 8 := natToBE_length 8 bits
      rw [← h1]
      exact readBytesN_exact _ _
    rw [hr, except_ok_bind]
    show (.ok (.tDouble (beVal (natToBE 8 bits)), rest) : Except NBTErr (Tag × List Nat)) =
      .ok (.tDouble bits, rest)
    rw [beVal_natToBE 8 bits
      (by
        have h8 : (256 : Nat) ^ 8 = 18446744073709551616 := by norm_num
        omega)]
  | hByteArray vs =>
    intro d fuel rest hwf hneed hcost
    simp only [wfP, Bool.and_eq_true, decide_eq_true_eq, List.all_eq_true] at hwf
    simp only [costP] at hcost
    simp only [needD] at hneed
    obtain ⟨f, rfl⟩ : ∃ f, fuel = f + 1 := ⟨fuel - 1, by omega⟩
    obtain ⟨e, rfl⟩ : ∃ e, d = e + 1 := ⟨d - 1, by omega⟩
    simp only [kindOf, encP]
    rw [List.append_assoc]
    simp only [parsePayload]
    have hr1 : readBytesN 4 (natToBE 4 vs.length ++ (vs.map encI8 ++ rest)) =
        .ok (natToBE 4 vs.length, vs.map encI8 ++ rest) := by
      have h1 : (natToBE 4 vs.length).length = 4 := natToBE_length 4 vs.length
      rw [← h1]
      exact readBytesN_exact _ _
    rw [hr1, except_ok_bind]
    show (do
      let (ebs, r') ← readBytesN (beVal (natToBE 4 vs.length)) (vs.map encI8 ++ rest)
      (.ok (.tByteArray (ebs.map toI8), r') : Except NBTErr (Tag × List Nat))) =
      .ok (.tByteArray vs, rest)
    rw [beVal_natToBE 4 vs.length
      (by
        have h4 : (256 : Nat) ^ 4 = 4294967296 := by norm_num
        omega)]
    have hr2 : readBytesN vs.length (vs.map encI8 ++ rest) = .ok (vs.map encI8, rest) := by
      have h1 : (vs.map encI8).length = vs.length := List.length_map vs encI8
      rw [← h1]
      exact readBytesN_exact _ _
    rw [hr2, except_ok_bind]
    show (.ok (.tByteArray ((vs.map encI8).map toI8), rest) : Except NBTErr (Tag × List Nat)) =
      .ok (.tByteArray vs, rest)
    rw [List.map_map]
    rw [map_id_of_mem vs (toI8 ∘ encI8)
      (fun a ha => toI8_encI8 a (hwf.2 a ha).1 (hwf.2 a ha).2)]
  | hString bs =>
    intro d fuel rest hwf hneed hcost
    simp only [wfP, Bool.and_eq_true, decide_eq_true_eq] at hwf
    simp only [costP] at hcost
    simp only [needD] at hneed
    obtain ⟨f, rfl⟩ : ∃ f, fuel = f + 1 := ⟨fuel - 1, by omega⟩
    obtain ⟨e, rfl⟩ : ∃ e, d = e + 1 := ⟨d - 1, by omega⟩
    simp only [kindOf, encP]
    simp only [parsePayload]
    rw [List.append_assoc] at *
    have hrn := readName_encoded bs rest hwf.1 hwf.2
    rw [List.append_assoc] at hrn
    rw [hrn, except_ok_bind]
  | hList ek xs ih =>
    intro d fuel rest hwf hneed hcost
    simp only [wfP, Bool.and_eq_true, Bool.or_eq_true, decide_eq_true_eq] at hwf
    obtain ⟨⟨⟨h31, hek0⟩, hek256⟩, hwfe⟩ := hwf
    simp only [costP] at hcost
    simp only [needD] at hneed
    obtain ⟨f, rfl⟩ : ∃ f, fuel = f + 1 := ⟨fuel - 1, by omega⟩
    obtain ⟨e, rfl⟩ : ∃ e, d = e + 1 := ⟨d - 1, by omega⟩
    by_cases hemp : xs = []
    · subst hemp
      rfl
    · have hpos : 0 < xs.length := List.length_pos.mpr hemp
      simp only [kindOf, encP]
      rw [List.cons_append, List.append_assoc, natToBE_four]
      simp only [List.cons_append, List.nil_append]
      simp only [parsePayload]
      have hbe : beVal [xs.length / 256 / 256 / 256 % 256, xs.length / 256 / 256 % 256,
          xs.length / 256 % 256, xs.length % 256] = xs.length := by
        rw [← natToBE_four]
        exact beVal_natToBE 4 xs.length
          (by
        have h4 : (256 : Nat) ^ 4 = 4294967296 := by norm_num
        omega)
      rw [hbe, toI32_small xs.length h31]
      rw [if_neg (by omega)]
      rw [if_neg (by
        rcases hek0 with he | hne
        · exact absurd (List.isEmpty_iff.mp he) hemp
        · exact hne)]
      rw [Int.toNat_natCast]
      have helem := wfElems_forall ek xs hwfe
      have hre := roundtrip_elems xs ek
        (fun x hx d1 fuel1 rest1 hw1 hn1 hc1 => ih x hx d1 fuel1 rest1 hw1 hn1 hc1)
        hwfe e f rest (by omega) (by omega)
      rw [hre, except_ok_bind]
  | hCompound ks ih =>
    intro d fuel rest hwf hneed hcost
    simp only [wfP] at hwf
    simp only [costP] at hcost
    simp only [needD] at hneed
    obtain ⟨f, rfl⟩ : ∃ f, fuel = f + 1 := ⟨fuel - 1, by omega⟩
    obtain ⟨e, rfl⟩ : ∃ e, d = e + 1 := ⟨d - 1, by omega⟩
    simp only [kindOf, encP]
    rw [List.append_assoc]
    simp only [List.singleton_append]
    simp only [parsePayload]
    have hkids := roundtrip_kids ks
      (fun n x hx d1 fuel1 rest1 hw1 hn1 hc1 => ih n x hx d1 fuel1 rest1 hw1 hn1 hc1)
      hwf e f ((encKids ks ++ 0 :: rest).length + 1) rest (by omega) (by omega)
      (by
        have h1 := kids_le_encKids ks
        simp only [List.length_append]
        omega)
    rw [hkids, except_ok_bind]
  | hIntArray vs =>
    intro d fuel rest hwf hneed hcost
    simp only [wfP, Bool.and_eq_true, decide_eq_true_eq, List.all_eq_true] at hwf
    simp only [costP] at hcost
    simp only [needD] at hneed
    obtain ⟨f, rfl⟩ : ∃ f, fuel = f + 1 := ⟨fuel - 1, by omega⟩
    obtain ⟨e, rfl⟩ : ∃ e, d = e + 1 := ⟨d - 1, by omega⟩
    simp only [kindOf, encP]
    rw [List.append_assoc]
    simp only [parsePayload]
    have hr1 : readBytesN 4 (natToBE 4 vs.length ++ ((vs.map encI32).flatten ++ rest)) =
        .ok (natToBE 4 vs.length, (vs.map encI32).flatten ++ rest) := by
      have h1 : (natToBE 4 vs.length).length = 4 := natToBE_length 4 vs.length
      rw [← h1]
      exact readBytesN_exact _ _
    rw [hr1, except_ok_bind]
    show (do
      let (vals, r') ← readBEs 4 (beVal (natToBE 4 vs.length)) ((vs.map encI32).flatten ++ rest)
      (.ok (.tIntArray (vals.map toI32), r') : Except NBTErr (Tag × List Nat))) =
      .ok (.tIntArray vs, rest)
    rw [beVal_natToBE 4 vs.length
      (by
        have h4 : (256 : Nat) ^ 4 = 4294967296 := by norm_num
        omega)]
    have hcl : (vs.map encI32).length = vs.length := List.length_map vs encI32
    rw [← hcl]
    rw [readBEs_encoded 4 (vs.map encI32) rest (by
      intro c hc
      obtain ⟨v, _, rfl⟩ := List.mem_map.mp hc
      exact natToBE_length 4 _), except_ok_bind]
    show (.ok (.tIntArray (((vs.map encI32).map beVal).map toI32), rest) :
      Except NBTErr (Tag × List Nat)) = .ok (.tIntArray vs, rest)
    rw [List.map_map, List.map_map]
    rw [map_id_of_mem vs ((toI32 ∘ beVal) ∘ encI32)
      (fun a ha => toI32_encI32 a (hwf.2 a ha).1 (hwf.2 a ha).2)]
  | hLongArray vs =>
    intro d fuel rest hwf hneed hcost
    simp only [wfP, Bool.and_eq_true, decide_eq_true_eq, List.all_eq_true] at hwf
    simp only [costP] at hcost
    simp only [needD] at hneed
    obtain ⟨f, rfl⟩ : ∃ f, fuel = f + 1 := ⟨fuel - 1, by omega⟩
    obtain ⟨e, rfl⟩ : ∃ e, d = e + 1 := ⟨d - 1, by omega⟩
    simp only [kindOf, encP]
    rw [List.append_assoc]
    simp only [parsePayload]
    have hr1 : readBytesN 4 (natToBE 4 vs.length ++ ((vs.map encI64).flatten ++ rest)) =
        .ok (natToBE 4 vs.length, (vs.map encI64).flatten ++ rest) := by
      have h1 : (natToBE 4 vs.length).length = 4 := natToBE_length 4 vs.length
      rw [← h1]
      exact readBytesN_exact _ _
    rw [hr1, except_ok_bind]
    show (do
      let (vals, r') ← readBEs 8 (beVal (natToBE 4 vs.length)) ((vs.map encI64).flatten ++ rest)
      (.ok (.tLongArray (vals.map toI64), r') : Except NBTErr (Tag × List Nat))) =
      .ok (.tLongArray vs, rest)
    rw [beVal_natToBE 4 vs.length
      (by
        have h4 : (256 : Nat) ^ 4 = 4294967296 := by norm_num
        omega)]
    have hcl : (vs.map encI64).length = vs.length := List.length_map vs encI64
    rw [← hcl]
    rw [readBEs_encoded 8 (vs.map encI64) rest (by
      intro c hc
      obtain ⟨v, _, rfl⟩ := List.mem_map.mp hc
      exact natToBE_length 8 _), except_ok_bind]
    show (.ok (.tLongArray (((vs.map encI64).map beVal).map toI64), rest) :
      Except NBTErr (Tag × List Nat)) = .ok (.tLongArray vs, rest)
    rw [List.map_map, List.map_map]
    rw [map_id_of_mem vs ((toI64 ∘ beVal) ∘ encI64)
      (fun a ha => toI64_encI64 a (hwf.2 a ha).1 (hwf.2 a ha).2)]

/-- The canonical encoding of a root tag: its kind byte, an empty name
(2-byte zero length), and its payload; a root End tag is the bare End
marker, spec 4.4 steps 1 and 2. -/
def encodeRoot (t : Tag) : List Nat :=
  match t with
  | .tEnd => [0]
  | t => kindOf t :: 0 :: 0 :: encP t

theorem parse_encodeRoot_aux (t : Tag) (hk : kindOf t ≠ 0) (hwf : wfP t = true)
    (hd : needD t ≤ DEPTH_LIMIT) :
    parse (kindOf t :: 0 :: 0 :: encP t) = .ok t := by
  unfold parse
  have hn : parseNamed (4 * (kindOf t :: 0 :: 0 :: encP t).length + 4) DEPTH_LIMIT
      (kindOf t :: 0 :: 0 :: encP t) = .ok ([], t, []) := by
    simp only [parseNamed]
    rw [if_neg hk]
    have hrn : readName (0 :: 0 :: encP t) = .ok ([], encP t) := by
      simp only [readName]
      have h0 : (0 * 256 + 0 : Nat) = 0 := by norm_num
      rw [h0, if_pos (Nat.zero_le _), List.take_zero, List.drop_zero]
      rw [if_pos (by decide : utf8Valid ([] : List Nat) = true)]
    rw [hrn, except_ok_bind]
    show (do
      let (t', r'') ← parsePayload (4 * (kindOf t :: 0 :: 0 :: encP t).length + 4)
        DEPTH_LIMIT (kindOf t) (encP t)
      (.ok (([] : List Nat), t', r'') : Except NBTErr (List Nat × Tag × List Nat))) =
      .ok ([], t, [])
    have hpay : parsePayload (4 * (kindOf t :: 0 :: 0 :: encP t).length + 4)
        DEPTH_LIMIT (kindOf t) (encP t) = .ok (t, []) := by
      have h1 := roundtrip_payload t DEPTH_LIMIT
        (4 * (kindOf t :: 0 :: 0 :: encP t).length + 4) [] hwf hd
        (by
          have hb := costP_bound t hwf
          simp only [List.length_cons]
          omega)
      rwa [List.append_nil] at h1
    rw [hpay, except_ok_bind]
  rw [hn]

/-- C9: encode/decode round trip — for every well-formed tag tree whose
nesting depth is within the parser's ceiling, encoding the tree to bytes
per the wire format and decoding those bytes with `parse` reproduces the
same tree. -/
theorem roundtrip_c9 (t : Tag) (hwf : wfP t = true) (hd : needD t ≤ DEPTH_LIMIT) :
    parse (encodeRoot t) = .ok t := by
  cases t with
  | tEnd => rfl
  | tByte v => exact parse_encodeRoot_aux _ (by simp [kindOf]) hwf hd
  | tShort v => exact parse_encodeRoot_aux _ (by simp [kindOf]) hwf hd
  | tInt v => exact parse_encodeRoot_aux _ (by simp [kindOf]) hwf hd
  | tLong v => exact parse_encodeRoot_aux _ (by simp [kindOf]) hwf hd
  | tFloat bits => exact parse_encodeRoot_aux _ (by simp [kindOf]) hwf hd
  | tDouble bits => exact parse_encodeRoot_aux _ (by simp [kindOf]) hwf hd
  | tByteArray vs => exact parse_encodeRoot_aux _ (by simp [kindOf]) hwf hd
  | tString bs => exact parse_encodeRoot_aux _ (by simp [kindOf]) hwf hd
  | tList ek xs => exact parse_encodeRoot_aux _ (by simp [kindOf]) hwf hd
  | tCompound ks => exact parse_encodeRoot_aux _ (by simp [kindOf]) hwf hd
  | tIntArray vs => exact parse_encodeRoot_aux _ (by simp [kindOf]) hwf hd
  | tLongArray vs => exact parse_encodeRoot_aux _ (by simp [kindOf]) hwf hd

/-- A sample tag tree: a compound holding a string field and a nested
homogeneous list of bytes. -/
def sampleTag : Tag :=
  .tCompound [([97], .tString [104, 105]), ([98], .tList 1 [.tByte 1, .tByte (-2)])]

theorem roundtrip_c9_witness : parse (encodeRoot sampleTag) = .ok sampleTag :=
  roundtrip_c9 sampleTag
    (by
      simp only [sampleTag, wfP, wfElems, wfKids, kindOf]
      decide)
    (by
      simp only [sampleTag, needD, needElems, needKids, DEPTH_LIMIT]
      decide)
